import Mathlib

/-!
Verification of the persistent-memory operations (pmemops) component of
NVSL/cpp-common.

The C++ sources embedded here live under `src/include/nvsl/pmemops/`:
`declarations.hh` (the `PMemOps` interface and the inline `streaming_wr`
stubs), `pmemops_clwb.hh` (write-back strategy, `clwb` + `sfence`, streaming
stores), `pmemops_clflushopt.hh` (flush-optimized strategy), `pmemops_msync.hh`
(msync strategy) and `pmemops_nopersist.hh` (no-op strategy).

Machine addresses and sizes are modelled as `Nat` (the code never relies on
pointer wrap-around), memory as a total function from addresses to byte
values, and each operation additionally returns the list of hardware-level
events (`clwb`, `clflushopt`, `msync`, `sfence`) it issues, in order.
-/

namespace Nvsl

/-- Byte-addressable memory: a total map from address to byte value. -/
abbrev Mem : Type := Nat → Nat

/-- Semantics of libc `std::memmove(dest, src, size)` (an external collaborator
of the core): after the call, `dest[0..size)` holds the bytes `src[0..size)`
held before the call (copy as if through a temporary buffer, hence correct
under overlap); all other addresses are unchanged. -/
def memmoveBytes (m : Mem) (dest src size : Nat) : Mem :=
  fun a => if dest ≤ a ∧ a < dest + size then m (src + (a - dest)) else m a

/-- Semantics of libc `std::memset(base, c, size)`: fills `base[0..size)` with
byte `c`; all other addresses are unchanged. -/
def memsetBytes (m : Mem) (base c size : Nat) : Mem :=
  fun a => if base ≤ a ∧ a < base + size then c else m a

/-- `static const size_t CL_SIZE = 64` from `declarations.hh`. -/
def CL_SIZE : Nat := 64

/-- `(uintptr_t)base & ~(CL_SIZE - 1)` from the flush loops: clearing the low
6 bits of `base`, i.e. rounding down to a 64-byte boundary. -/
def alignDownCL (base : Nat) : Nat := base - base % CL_SIZE

/-- The flush loop shared verbatim by `PMemOpsClwb::flush`,
`PMemOpsClwb::evict` and `PMemOpsClflushOpt::flush`:
`for (uptr = base & ~(CL_SIZE-1); uptr < base + size; uptr += CL_SIZE)`.
Returns the sequence of addresses the per-line instruction is issued on. -/
def flushLoop (stop uptr : Nat) : List Nat :=
  if h : uptr < stop then uptr :: flushLoop stop (uptr + CL_SIZE) else []
termination_by stop - uptr
decreasing_by simp [CL_SIZE]; omega

/-- Addresses flushed by `flush(base, size)` in the clwb and clflushopt
strategies (both contain the identical loop). -/
def flushAddrs (base size : Nat) : List Nat :=
  flushLoop (base + size) (alignDownCL base)

/-- Modelled from the spec: a 64-byte cache line with base address `L`
intersects the byte range `[base, base+size)`.  (Stated via `max`/`min` so
that an empty range intersects no line.) -/
def lineIntersects (L base size : Nat) : Prop :=
  L % 64 = 0 ∧ max L base < min (L + 64) (base + size)

instance (L base size : Nat) : Decidable (lineIntersects L base size) := by
  unfold lineIntersects; infer_instance

/-- Hardware-level events issued by the strategies. -/
inductive Event : Type
  | clwb (addr : Nat)
  | clflushopt (addr : Nat)
  | msyncCall (base size : Nat)
  | sfence
deriving DecidableEq

/-- The four durability strategies of the interface. -/
inductive Strategy : Type
  | writeback
  | flushopt
  | sync
  | noop
deriving DecidableEq

/-- Events issued by `flush(base, size)` for each strategy:
clwb per intersecting line (`pmemops_clwb.hh`), clflushopt per intersecting
line (`pmemops_clflushopt.hh`), a single `msync(base, size, MS_SYNC)`
(`pmemops_msync.hh`), nothing (`pmemops_nopersist.hh`). -/
def flushEvents : Strategy → Nat → Nat → List Event
  | .writeback, base, size => (flushAddrs base size).map Event.clwb
  | .flushopt, base, size => (flushAddrs base size).map Event.clflushopt
  | .sync, base, size => [Event.msyncCall base size]
  | .noop, _, _ => []

/-- Events issued by `drain()`: `_mm_sfence()` for the clwb and clflushopt
strategies, nothing for the msync (`/* Do nothing */`) and no-op strategies. -/
def drainEvents : Strategy → List Event
  | .writeback => [Event.sfence]
  | .flushopt => [Event.sfence]
  | .sync => []
  | .noop => []

/-- `flush(base, size)`: mutates no memory and issues the strategy's flush
events. -/
def flushOp (st : Strategy) (m : Mem) (base size : Nat) : Mem × List Event :=
  (m, flushEvents st base size)

/-- `drain()`: mutates no memory and issues the strategy's drain events. -/
def drainOp (st : Strategy) (m : Mem) : Mem × List Event :=
  (m, drainEvents st)

/-- `persist(base, size)`: `flush` then `drain` for clwb and clflushopt;
`flush` only for msync (`PMemOpsMsync::persist` calls just `this->flush`);
nothing for no-op. -/
def persistOp (st : Strategy) (m : Mem) (base size : Nat) : Mem × List Event :=
  match st with
  | .sync => (m, flushEvents .sync base size)
  | .noop => (m, [])
  | st => (m, flushEvents st base size ++ drainEvents st)

/-- `memmove(dest, src, size)`: `std::memmove` then `flush(dest, size)` then
`drain()` (clwb, clflushopt, msync); `std::memmove` only (no-op strategy). -/
def memmoveOp (st : Strategy) (m : Mem) (dest src size : Nat) :
    Mem × List Event :=
  match st with
  | .noop => (memmoveBytes m dest src size, [])
  | st => (memmoveBytes m dest src size,
      flushEvents st dest size ++ drainEvents st)

/-- `memcpy(dest, src, size)`: every strategy delegates to `this->memmove`. -/
def memcpyOp (st : Strategy) (m : Mem) (dest src size : Nat) :
    Mem × List Event :=
  memmoveOp st m dest src size

/-- `memset(base, c, size)`: `std::memset` then `flush(base, size)` then
`drain()` (clwb, clflushopt, msync); `std::memset` only (no-op strategy). -/
def memsetOp (st : Strategy) (m : Mem) (base c size : Nat) :
    Mem × List Event :=
  match st with
  | .noop => (memsetBytes m base c size, [])
  | st => (memsetBytes m base c size,
      flushEvents st base size ++ drainEvents st)

/-- Outcome of an operation that may hit the `assert(0 && "unimplemented")`
stubs in `declarations.hh`. -/
inductive OpOutcome : Type
  | ok
  | fatalAssert (msg : String)
deriving DecidableEq

/-- `PMemOpsMsync::streaming_wr` from `declarations.hh`: discards its
arguments and executes `assert(0 && "unimplemented")`; no byte is copied. -/
def msyncStreamingWr (m : Mem) (_dest _src _bytes : Nat) : Mem × OpOutcome :=
  (m, .fatalAssert "unimplemented")

/-- `PMemOpsClflushOpt::streaming_wr` from `declarations.hh`: identical
`assert(0 && "unimplemented")` stub. -/
def clflushoptStreamingWr (m : Mem) (_dest _src _bytes : Nat) :
    Mem × OpOutcome :=
  (m, .fatalAssert "unimplemented")

/-- `PMemOpsNoPersist::streaming_wr` from `declarations.hh`: identical
`assert(0 && "unimplemented")` stub. -/
def nopersistStreamingWr (m : Mem) (_dest _src _bytes : Nat) :
    Mem × OpOutcome :=
  (m, .fatalAssert "unimplemented")

/-- What a caller of `PMemOpsMsync::flush`/`persist` can observe about a
failure of the underlying OS call. -/
structure SyncObservable : Type where
  terminated : Bool
  reported : Bool
deriving DecidableEq

/-- `PMemOpsMsync::flush` is the single statement `msync(base, size, MS_SYNC);`
with the return value of `msync` discarded and a `void` return type.  `osRet`
is the value the OS call returns (`0` on success, `-1` on failure); the
function never inspects it, never reports it, and never terminates the
process. -/
def msyncFlushObservable (_osRet : Int) : SyncObservable :=
  { terminated := false, reported := false }

/-- `PMemOpsMsync::persist` calls `this->flush` and nothing else, so its
caller observes exactly what `flush`'s caller observes. -/
def msyncPersistObservable (osRet : Int) : SyncObservable :=
  msyncFlushObservable osRet

/-- One iteration of the chunk-dispatch chain in `PMemOpsClwb::streaming_wr`
(`pmemops_clwb.hh`): the `#ifdef __AVX512F__` / `#if __AVX__` guarded
if/else-if chain over `remaining_bytes`.  Returns the chunk width copied this
iteration, or `none` when `remaining < 4` so that no branch fires and the loop
body does nothing. -/
def wrStep (avx512 avx : Bool) (remaining : Nat) : Option Nat :=
  if avx512 = true ∧ 256 ≤ remaining then some 256
  else if avx512 = true ∧ 128 ≤ remaining then some 128
  else if avx512 = true ∧ 64 ≤ remaining then some 64
  else if avx = true ∧ 32 ≤ remaining then some 32
  else if 16 ≤ remaining then some 16
  else if 8 ≤ remaining then some 8
  else if 4 ≤ remaining then some 4
  else none

/-- The `while (remaining_bytes > 0)` loop of `PMemOpsClwb::streaming_wr`,
indexed by `fuel`, a bound on the number of iterations modelled.  Each
iteration copies the `wrStep` chunk from `src_bp + cur_off_bytes` to
`dest_bp + cur_off_bytes` (the streaming-store intrinsics perform a plain
byte copy of the chunk) and advances, or — when no branch fires — leaves the
whole state unchanged and iterates again.  Returns the final memory and the
list of chunk widths in dispatch order, or `none` if the loop has not exited
within `fuel` iterations. -/
def wrLoop (avx512 avx : Bool) (dest src : Nat) :
    Nat → Mem → Nat → Nat → Option (Mem × List Nat)
  | 0, m, _off, remaining => if remaining = 0 then some (m, []) else none
  | fuel + 1, m, off, remaining =>
    if remaining = 0 then some (m, [])
    else
      match wrStep avx512 avx remaining with
      | some w =>
        (wrLoop avx512 avx dest src fuel
            (memmoveBytes m (dest + off) (src + off) w)
            (off + w) (remaining - w)).map (fun p => (p.1, w :: p.2))
      | none => wrLoop avx512 avx dest src fuel m off remaining

/-- `PMemOpsClwb::streaming_wr(dest, src, bytes)`: the loop starting at offset
0 with `remaining_bytes = bytes`, run with `bytes` iterations of fuel (enough
whenever the loop terminates at all, since every productive iteration consumes
at least 4 bytes). -/
def streaming_wr (avx512 avx : Bool) (m : Mem) (dest src bytes : Nat) :
    Option (Mem × List Nat) :=
  wrLoop avx512 avx dest src bytes m 0 bytes

/-- The streaming-write loop never exits, whatever iteration bound is
allowed. -/
def wrDiverges (avx512 avx : Bool) (m : Mem) (dest src bytes : Nat) : Prop :=
  ∀ fuel, wrLoop avx512 avx dest src fuel m 0 bytes = none

/-- Modelled from the spec: the SIMD chunk widths available at build time, in
descending order (256/128/64 need AVX512F, 32 needs AVX, 16/8/4 are always
available). -/
def availWidths (avx512 avx : Bool) : List Nat :=
  (if avx512 then [256, 128, 64] else []) ++
    (if avx then [32] else []) ++ [16, 8, 4]

/-- Modelled from the spec: the largest supported width for the build
configuration. -/
def maxWidth (avx512 avx : Bool) : Nat :=
  if avx512 then 256 else if avx then 32 else 16

/-- Modelled from the spec: the largest available width that fits in `r`
remaining bytes (`none` if even the smallest width, 4, does not fit). -/
def largestFit (avx512 avx : Bool) (r : Nat) : Option Nat :=
  ((availWidths avx512 avx).filter (fun w => decide (w ≤ r))).head?

/-- Modelled from the spec: the greedy largest-width-first decomposition of
`n` bytes into available chunk widths, stopping when no width fits. -/
def greedySpec (avx512 avx : Bool) (n : Nat) : List Nat :=
  match h : largestFit avx512 avx n with
  | some w => w :: greedySpec avx512 avx (n - w)
  | none => []
termination_by n
decreasing_by
  have hw : w ∈ (availWidths avx512 avx).filter (fun x => decide (x ≤ n)) := by
    unfold largestFit at h
    rcases hl : (availWidths avx512 avx).filter (fun x => decide (x ≤ n))
      with _ | ⟨w0, t⟩
    · rw [hl] at h; simp at h
    · rw [hl] at h
      simp at h
      simp [h]
  have hle : w ≤ n := by simpa using (List.mem_filter.mp hw).2
  have h4 : 4 ≤ w := by
    have hmem := (List.mem_filter.mp hw).1
    cases avx512 <;> cases avx <;> simp [availWidths] at hmem <;> omega
  omega

/-- A sample concrete memory used by witnesses. -/
def m0 : Mem := fun a => a % 256

theorem flushLoop_mem (stop uptr : Nat) :
    ∀ a, a ∈ flushLoop stop uptr ↔
      uptr ≤ a ∧ a < stop ∧ (a - uptr) % 64 = 0 := by
  induction uptr using flushLoop.induct stop with
  | case1 x h ih =>
    intro a
    rw [flushLoop, dif_pos h]
    simp only [CL_SIZE] at ih ⊢
    simp only [List.mem_cons, ih]
    omega
  | case2 x h =>
    intro a
    rw [flushLoop, dif_neg h]
    simp only [List.not_mem_nil, false_iff]
    omega

theorem flushLoop_length (stop uptr : Nat) :
    (flushLoop stop uptr).length = (stop - uptr + 63) / 64 := by
  induction uptr using flushLoop.induct stop with
  | case1 x h ih =>
    rw [flushLoop, dif_pos h]
    simp only [CL_SIZE] at ih ⊢
    simp only [List.length_cons, ih]
    omega
  | case2 x h =>
    rw [flushLoop, dif_neg h]
    simp only [List.length_nil]
    omega

theorem flushLoop_nodup (stop uptr : Nat) : (flushLoop stop uptr).Nodup := by
  induction uptr using flushLoop.induct stop with
  | case1 x h ih =>
    rw [flushLoop, dif_pos h]
    refine List.nodup_cons.mpr ⟨?_, ih⟩
    intro hmem
    rw [flushLoop_mem] at hmem
    simp only [CL_SIZE] at hmem
    omega
  | case2 x h =>
    rw [flushLoop, dif_neg h]
    exact List.nodup_nil

/-- C2 (amended: nonempty ranges): for every base address and every size > 0,
the flush loop of the write-back and flush-optimized strategies issues exactly
one per-line flush for each 64-byte cache line intersecting
`[base, base+size)` — no duplicates, membership is exactly line intersection,
and the number of issued flushes is the line count
`(base+size-1)/64 - base/64 + 1` (k+1 for k full lines plus a partial
line). -/
theorem flush_touches_exactly_intersecting_lines (base size : Nat)
    (h : 0 < size) :
    (flushAddrs base size).Nodup ∧
    (∀ a, a ∈ flushAddrs base size ↔ lineIntersects a base size) ∧
    (flushAddrs base size).length = (base + size - 1) / 64 - base / 64 + 1 := by
  refine ⟨flushLoop_nodup _ _, fun a => ?_, ?_⟩
  · rw [flushAddrs, flushLoop_mem, lineIntersects]
    simp only [alignDownCL, CL_SIZE]
    omega
  · rw [flushAddrs, flushLoop_length]
    simp only [alignDownCL, CL_SIZE]
    omega

theorem flush_touches_exactly_intersecting_lines_wit :
    0 < 9 ∧ ((flushAddrs 60 9).Nodup ∧
      (64 ∈ flushAddrs 60 9 ↔ lineIntersects 64 60 9) ∧
      (flushAddrs 60 9).length = (60 + 9 - 1) / 64 - 60 / 64 + 1) := by
  refine ⟨by norm_num, ?_⟩
  obtain ⟨h1, h2, h3⟩ :=
    flush_touches_exactly_intersecting_lines 60 9 (by norm_num)
  exact ⟨h1, h2 64, h3⟩

/-- C2 counterexample: at `base = 1`, `size = 0` the loop still issues one
flush (for line 0), although no cache line intersects the empty range
`[1, 1)`; so "exactly one flush per intersecting line" fails for `size = 0`
with unaligned base. -/
theorem flush_empty_range_unaligned_cex :
    flushAddrs 1 0 = [0] ∧ ¬ lineIntersects 0 1 0 ∧
    ¬ (∀ a, a ∈ flushAddrs 1 0 ↔ lineIntersects a 1 0) := by
  have he : flushAddrs 1 0 = [0] := by
    rw [flushAddrs, flushLoop, dif_pos (by decide : alignDownCL 1 < 1 + 0),
      flushLoop, dif_neg (by decide : ¬ alignDownCL 1 + CL_SIZE < 1 + 0)]
    decide
  refine ⟨he, by decide, fun hall => ?_⟩
  have h0 := (hall 0).mp (by rw [he]; exact List.mem_cons_self _ _)
  exact absurd h0 (by decide)

/-- C10: for the write-back and flush-optimized strategies, `flush(base, 0)`
issues exactly one cache-line flush (for the line containing `base`) when
`base` is not 64-byte aligned, and none when it is aligned. -/
theorem flush_empty_range_alignment (base : Nat) :
    flushEvents Strategy.writeback base 0 =
      (if base % 64 = 0 then [] else [Event.clwb (base - base % 64)]) ∧
    flushEvents Strategy.flushopt base 0 =
      (if base % 64 = 0 then [] else [Event.clflushopt (base - base % 64)]) := by
  have key : flushAddrs base 0 =
      if base % 64 = 0 then [] else [base - base % 64] := by
    rw [flushAddrs]
    by_cases hb : base % 64 = 0
    · rw [if_pos hb, flushLoop,
        dif_neg (by simp only [alignDownCL, CL_SIZE]; omega)]
    · rw [if_neg hb, flushLoop,
        dif_pos (show alignDownCL base < base + 0 by
          simp only [alignDownCL, CL_SIZE]; omega),
        flushLoop, dif_neg (by simp only [alignDownCL, CL_SIZE]; omega)]
      simp only [alignDownCL, CL_SIZE]
  refine ⟨?_, ?_⟩ <;>
    · simp only [flushEvents, key]
      by_cases hb : base % 64 = 0 <;> simp [hb]

/-- C1: for the write-back, flush-optimized and sync strategies, each
mutating operation (memcpy, memmove, memset) performs the byte mutation and
then, before returning, issues exactly the events of `flush` on the mutated
range `(base, size)` followed by the events of `drain()`. -/
theorem mutating_ops_flush_exact_range_then_drain (st : Strategy)
    (hst : st ≠ Strategy.noop) (m : Mem) (dest src base c size : Nat) :
    memcpyOp st m dest src size =
      (memmoveBytes m dest src size,
        flushEvents st dest size ++ drainEvents st) ∧
    memmoveOp st m dest src size =
      (memmoveBytes m dest src size,
        flushEvents st dest size ++ drainEvents st) ∧
    memsetOp st m base c size =
      (memsetBytes m base c size,
        flushEvents st base size ++ drainEvents st) := by
  cases st
  · exact ⟨rfl, rfl, rfl⟩
  · exact ⟨rfl, rfl, rfl⟩
  · exact ⟨rfl, rfl, rfl⟩
  · exact absurd rfl hst

theorem mutating_ops_flush_exact_range_then_drain_wit :
    memcpyOp Strategy.writeback m0 0 64 4 =
      (memmoveBytes m0 0 64 4,
        flushEvents Strategy.writeback 0 4 ++ drainEvents Strategy.writeback) ∧
    memmoveOp Strategy.writeback m0 0 64 4 =
      (memmoveBytes m0 0 64 4,
        flushEvents Strategy.writeback 0 4 ++ drainEvents Strategy.writeback) ∧
    memsetOp Strategy.writeback m0 0 7 4 =
      (memsetBytes m0 0 7 4,
        flushEvents Strategy.writeback 0 4 ++ drainEvents Strategy.writeback) :=
  mutating_ops_flush_exact_range_then_drain Strategy.writeback
    (by decide) m0 0 64 0 7 4

/-- C7: for every strategy and size, `memcpy` delegates to `memmove`, and
`memmove` has move semantics: after the call `dest[0..size)` holds the bytes
`src[0..size)` held before the call, correct under overlap. -/
theorem memcpy_is_memmove_overlap_safe (st : Strategy) (m : Mem)
    (dest src size : Nat) :
    memcpyOp st m dest src size = memmoveOp st m dest src size ∧
    ∀ i, i < size →
      (memmoveOp st m dest src size).1 (dest + i) = m (src + i) := by
  refine ⟨rfl, fun i hi => ?_⟩
  have h1 : (memmoveOp st m dest src size).1 = memmoveBytes m dest src size := by
    cases st <;> rfl
  rw [h1]
  simp only [memmoveBytes]
  rw [if_pos ⟨Nat.le_add_right _ _, by omega⟩]
  congr 1
  omega

theorem memcpy_is_memmove_overlap_safe_wit :
    memcpyOp Strategy.sync m0 2 0 4 = memmoveOp Strategy.sync m0 2 0 4 ∧
    (memmoveOp Strategy.sync m0 2 0 4).1 (2 + 1) = m0 (0 + 1) :=
  ⟨(memcpy_is_memmove_overlap_safe Strategy.sync m0 2 0 4).1,
    (memcpy_is_memmove_overlap_safe Strategy.sync m0 2 0 4).2 1 (by norm_num)⟩

/-- C8: for every strategy, byte value c and size > 0, after
`memset(base, c, size)` every byte of `base[0..size)` equals c; in particular
the first and the last byte of the range. -/
theorem memset_fills_range (st : Strategy) (m : Mem) (base c size : Nat)
    (h : 0 < size) :
    (∀ i, i < size → (memsetOp st m base c size).1 (base + i) = c) ∧
    (memsetOp st m base c size).1 base = c ∧
    (memsetOp st m base c size).1 (base + (size - 1)) = c := by
  have h1 : (memsetOp st m base c size).1 = memsetBytes m base c size := by
    cases st <;> rfl
  have hfill : ∀ i, i < size → (memsetOp st m base c size).1 (base + i) = c := by
    intro i hi
    rw [h1]
    simp only [memsetBytes]
    rw [if_pos ⟨Nat.le_add_right _ _, by omega⟩]
  refine ⟨hfill, ?_, hfill (size - 1) (by omega)⟩
  have h0 := hfill 0 h
  simpa using h0

theorem memset_fills_range_wit :
    0 < 1024 ∧ ((memsetOp Strategy.writeback m0 0 99 1024).1 0 = 99 ∧
      (memsetOp Strategy.writeback m0 0 99 1024).1 (0 + (1024 - 1)) = 99) := by
  refine ⟨by norm_num, ?_⟩
  obtain ⟨_, h2, h3⟩ :=
    memset_fills_range Strategy.writeback m0 0 99 1024 (by norm_num)
  exact ⟨h2, h3⟩

/-- C9: the no-op strategy mutates memory exactly as the plain byte
operations do, its `flush`/`persist`/`drain` have no effect, no operation
issues any event (no flush or drain side effect is observable), and memory
outside the mutated range is unchanged. -/
theorem noop_mutates_without_flush_or_drain (m : Mem)
    (dest src base c size : Nat) :
    memmoveOp Strategy.noop m dest src size =
      (memmoveBytes m dest src size, []) ∧
    memcpyOp Strategy.noop m dest src size =
      memmoveOp Strategy.noop m dest src size ∧
    memsetOp Strategy.noop m base c size = (memsetBytes m base c size, []) ∧
    flushOp Strategy.noop m base size = (m, []) ∧
    persistOp Strategy.noop m base size = (m, []) ∧
    drainOp Strategy.noop m = (m, []) ∧
    (∀ a, ¬ (dest ≤ a ∧ a < dest + size) →
      (memmoveOp Strategy.noop m dest src size).1 a = m a) ∧
    (∀ a, ¬ (base ≤ a ∧ a < base + size) →
      (memsetOp Strategy.noop m base c size).1 a = m a) := by
  refine ⟨rfl, rfl, rfl, rfl, rfl, rfl, fun a ha => ?_, fun a ha => ?_⟩
  · show memmoveBytes m dest src size a = m a
    simp only [memmoveBytes]
    rw [if_neg ha]
  · show memsetBytes m base c size a = m a
    simp only [memsetBytes]
    rw [if_neg ha]

theorem noop_mutates_without_flush_or_drain_wit :
    memsetOp Strategy.noop m0 0 7 4 = (memsetBytes m0 0 7 4, []) ∧
    (memsetOp Strategy.noop m0 0 7 4).1 100 = m0 100 ∧
    ¬ (0 ≤ 100 ∧ 100 < 0 + 4) := by
  obtain ⟨_, _, h3, _, _, _, _, h8⟩ :=
    noop_mutates_without_flush_or_drain m0 0 64 0 7 4
  exact ⟨h3, h8 100 (by norm_num), by norm_num⟩

/-- C6: the flush-optimized, sync and no-op strategies implement
`streaming_wr` as `assert(0 && "unimplemented")`: the fatal assertion branch
is reached on every invocation and no byte of memory is modified. -/
theorem streaming_wr_unimplemented_fatal (m : Mem) (dest src bytes : Nat) :
    clflushoptStreamingWr m dest src bytes =
      (m, .fatalAssert "unimplemented") ∧
    msyncStreamingWr m dest src bytes = (m, .fatalAssert "unimplemented") ∧
    nopersistStreamingWr m dest src bytes =
      (m, .fatalAssert "unimplemented") :=
  ⟨rfl, rfl, rfl⟩

/-- C5: `PMemOpsMsync::flush` discards the return value of
`msync(base, size, MS_SYNC)`, and `persist` just calls `flush`; on a failing
OS call (return value -1) nothing is reported or propagated to the caller —
the observable outcome is identical to the success case (the process is not
terminated, but the failure is silently ignored rather than reported). -/
theorem msync_failure_silently_ignored :
    msyncFlushObservable (-1) = { terminated := false, reported := false } ∧
    msyncPersistObservable (-1) = { terminated := false, reported := false } ∧
    msyncFlushObservable (-1) = msyncFlushObservable 0 :=
  ⟨rfl, rfl, rfl⟩

theorem avail_mem_facts (a5 a : Bool) :
    ∀ w ∈ availWidths a5 a, 4 ≤ w ∧ w % 4 = 0 := by
  cases a5 <;> cases a <;> decide

theorem avail_dvd (a5 a : Bool) :
    ∀ x ∈ availWidths a5 a, ∀ y ∈ availWidths a5 a, x ≤ y → x ∣ y := by
  cases a5 <;> cases a <;> decide

theorem avail_sorted (a5 a : Bool) :
    List.Pairwise (fun x y => y ≤ x) (availWidths a5 a) := by
  cases a5 <;> cases a <;> decide

theorem four_mem_avail (a5 a : Bool) : (4 : Nat) ∈ availWidths a5 a := by
  cases a5 <;> cases a <;> decide

theorem maxWidth_mem (a5 a : Bool) : maxWidth a5 a ∈ availWidths a5 a := by
  cases a5 <;> cases a <;> decide

theorem avail_le_max (a5 a : Bool) :
    ∀ w ∈ availWidths a5 a, w ≤ maxWidth a5 a := by
  cases a5 <;> cases a <;> decide

theorem largestFit_mem_le {a5 a : Bool} {r w : Nat}
    (h : largestFit a5 a r = some w) : w ∈ availWidths a5 a ∧ w ≤ r := by
  unfold largestFit at h
  rcases hl : (availWidths a5 a).filter (fun x => decide (x ≤ r)) with _ | ⟨w0, t⟩
  · rw [hl] at h; simp at h
  · rw [hl] at h
    simp at h
    subst h
    have hw : w0 ∈ (availWidths a5 a).filter (fun x => decide (x ≤ r)) := by
      rw [hl]; exact List.mem_cons_self _ _
    have hf := List.mem_filter.mp hw
    exact ⟨hf.1, by simpa using hf.2⟩

theorem largestFit_ge {a5 a : Bool} {r w w' : Nat}
    (h : largestFit a5 a r = some w) (hw' : w' ∈ availWidths a5 a)
    (hle : w' ≤ r) : w' ≤ w := by
  have hmem : w' ∈ (availWidths a5 a).filter (fun x => decide (x ≤ r)) :=
    List.mem_filter.mpr ⟨hw', by simpa⟩
  unfold largestFit at h
  rcases hl : (availWidths a5 a).filter (fun x => decide (x ≤ r)) with _ | ⟨w0, t⟩
  · rw [hl] at hmem; simp at hmem
  · rw [hl] at h hmem
    simp at h
    subst h
    have hp : List.Pairwise (fun x y => y ≤ x) (w0 :: t) := by
      rw [← hl]; exact (avail_sorted a5 a).filter _
    rcases List.mem_cons.mp hmem with rfl | hmem'
    · exact le_refl _
    · exact List.rel_of_pairwise_cons hp hmem'

theorem largestFit_of_ge4 (a5 a : Bool) {r : Nat} (h : 4 ≤ r) :
    ∃ w, largestFit a5 a r = some w := by
  have hmem : (4 : Nat) ∈ (availWidths a5 a).filter (fun x => decide (x ≤ r)) :=
    List.mem_filter.mpr ⟨four_mem_avail a5 a, by simpa⟩
  rcases hl : (availWidths a5 a).filter (fun x => decide (x ≤ r)) with _ | ⟨w0, t⟩
  · rw [hl] at hmem; simp at hmem
  · exact ⟨w0, by unfold largestFit; rw [hl]; rfl⟩

theorem largestFit_eq_of {a5 a : Bool} {r w : Nat}
    (hmem : w ∈ availWidths a5 a) (hle : w ≤ r)
    (hmax : ∀ w' ∈ availWidths a5 a, w' ≤ r → w' ≤ w) :
    largestFit a5 a r = some w := by
  have h4 : 4 ≤ w := (avail_mem_facts a5 a w hmem).1
  obtain ⟨u, hu⟩ := largestFit_of_ge4 a5 a (by omega : 4 ≤ r)
  obtain ⟨humem, hule⟩ := largestFit_mem_le hu
  have h1 : u ≤ w := hmax u humem hule
  have h2 : w ≤ u := largestFit_ge hu hmem hle
  rw [hu]
  congr 1
  omega

theorem wrStep_none_lt4 {a5 a : Bool} {r : Nat}
    (h : wrStep a5 a r = none) : r < 4 := by
  unfold wrStep at h
  split_ifs at h <;> simp_all

theorem wrStep_some_spec {a5 a : Bool} {r w : Nat}
    (h : wrStep a5 a r = some w) :
    w ∈ availWidths a5 a ∧ w ≤ r ∧
      ∀ w' ∈ availWidths a5 a, w' ≤ r → w' ≤ w := by
  unfold wrStep at h
  split_ifs at h <;>
    · injection h with h
      subst h
      refine ⟨?_, ?_, fun w' hw' hle => ?_⟩ <;>
        cases a5 <;> cases a <;> simp_all [availWidths] <;> omega

theorem wrStep_eq_largestFit (a5 a : Bool) (r : Nat) :
    wrStep a5 a r = largestFit a5 a r := by
  rcases hs : wrStep a5 a r with _ | w
  · rcases hf : largestFit a5 a r with _ | u
    · rfl
    · obtain ⟨humem, hule⟩ := largestFit_mem_le hf
      have h4 := (avail_mem_facts a5 a u humem).1
      have hlt := wrStep_none_lt4 hs
      exfalso
      omega
  · obtain ⟨hmem, hle, hmax⟩ := wrStep_some_spec hs
    exact (largestFit_eq_of hmem hle hmax).symm

theorem largestFit_zero (a5 a : Bool) : largestFit a5 a 0 = none := by
  cases a5 <;> cases a <;> decide

theorem greedySpec_step {a5 a : Bool} {n w : Nat}
    (h : largestFit a5 a n = some w) :
    greedySpec a5 a n = w :: greedySpec a5 a (n - w) := by
  rw [greedySpec, h]

theorem greedySpec_of_none {a5 a : Bool} {n : Nat}
    (h : largestFit a5 a n = none) : greedySpec a5 a n = [] := by
  rw [greedySpec, h]

theorem greedySpec_zero (a5 a : Bool) : greedySpec a5 a 0 = [] :=
  greedySpec_of_none (largestFit_zero a5 a)

theorem greedySpec_facts (a5 a : Bool) (n : Nat) : n % 4 = 0 →
    (greedySpec a5 a n).sum = n ∧
    (∀ w ∈ greedySpec a5 a n, w ∈ availWidths a5 a) := by
  induction n using Nat.strong_induction_on with
  | _ n ih =>
    intro h4
    rcases hf : largestFit a5 a n with _ | w
    · rw [greedySpec_of_none hf]
      have hn : n < 4 := by
        by_contra hc
        obtain ⟨u, hu⟩ := largestFit_of_ge4 a5 a (r := n) (by omega)
        rw [hf] at hu
        exact absurd hu (by simp)
      refine ⟨by simp; omega, by simp⟩
    · rw [greedySpec_step hf]
      obtain ⟨hmem, hle⟩ := largestFit_mem_le hf
      obtain ⟨hw4, hwmod⟩ := avail_mem_facts a5 a w hmem
      have hrec := ih (n - w) (by omega) (by omega)
      refine ⟨?_, ?_⟩
      · simp only [List.sum_cons, hrec.1]
        omega
      · intro x hx
        rcases List.mem_cons.mp hx with rfl | hx'
        · exact hmem
        · exact hrec.2 x hx'

theorem greedySpec_all_max (a5 a : Bool) (n : Nat) : n % maxWidth a5 a = 0 →
    ∀ w ∈ greedySpec a5 a n, w = maxWidth a5 a := by
  induction n using Nat.strong_induction_on with
  | _ n ih =>
    intro hmod w hw
    rcases Nat.eq_zero_or_pos n with rfl | hpos
    · rw [greedySpec_zero] at hw
      simp at hw
    · have hMpos : 0 < maxWidth a5 a := by
        have := (avail_mem_facts a5 a _ (maxWidth_mem a5 a)).1
        omega
      have hmw : maxWidth a5 a ≤ n :=
        Nat.le_of_dvd hpos (Nat.dvd_of_mod_eq_zero hmod)
      have hfit : largestFit a5 a n = some (maxWidth a5 a) :=
        largestFit_eq_of (maxWidth_mem a5 a) hmw
          (fun w' hw' _ => avail_le_max a5 a w' hw')
      rw [greedySpec_step hfit] at hw
      rcases List.mem_cons.mp hw with rfl | hw'
      · rfl
      · have hmod' : (n - maxWidth a5 a) % maxWidth a5 a = 0 := by
          have hd : maxWidth a5 a ∣ n - maxWidth a5 a :=
            Nat.dvd_sub' (Nat.dvd_of_mod_eq_zero hmod) dvd_rfl
          exact Nat.sub_mod_eq_zero_of_mod_eq (by rw [hmod, Nat.mod_self])
        exact ih (n - maxWidth a5 a) (Nat.sub_lt hpos hMpos) hmod' w hw'

theorem list_exists_max :
    ∀ (l : List Nat), l ≠ [] → ∃ x, x ∈ l ∧ ∀ y ∈ l, y ≤ x := by
  intro l
  induction l with
  | nil => intro h; exact absurd rfl h
  | cons b t ih =>
    intro _
    rcases t with _ | ⟨c, t'⟩
    · exact ⟨b, List.mem_cons_self _ _, by simp⟩
    · obtain ⟨x, hx, hmax⟩ := ih (by simp)
      rcases le_total b x with hbx | hxb
      · refine ⟨x, List.mem_cons_of_mem _ hx, fun y hy => ?_⟩
        rcases List.mem_cons.mp hy with rfl | hy'
        · exact hbx
        · exact hmax y hy'
      · refine ⟨b, List.mem_cons_self _ _, fun y hy => ?_⟩
        rcases List.mem_cons.mp hy with rfl | hy'
        · exact le_refl _
        · exact le_trans (hmax y hy') hxb

theorem subset_hits_target (a5 a : Bool) : ∀ (k : Nat) (l : List Nat) (T : Nat),
    l.length ≤ k → 0 < T → (∀ e ∈ l, e ∈ availWidths a5 a) →
    (∀ e ∈ l, e ∣ T) → T ≤ l.sum →
    ∃ sub rest, l.Perm (sub ++ rest) ∧ sub.sum = T ∧
      (∀ e ∈ rest, e ∈ availWidths a5 a) := by
  intro k
  induction k with
  | zero =>
    intro l T hlen hT hmem hdvd hsum
    have hl : l = [] := List.length_eq_zero.mp (Nat.le_zero.mp hlen)
    subst hl
    simp at hsum
    omega
  | succ k ih =>
    intro l T hlen hT hmem hdvd hsum
    have hne : l ≠ [] := by
      intro h
      subst h
      simp at hsum
      omega
    obtain ⟨mx, hmx, hmax⟩ := list_exists_max l hne
    have hmxdvd : mx ∣ T := hdvd mx hmx
    have hmxle : mx ≤ T := Nat.le_of_dvd hT hmxdvd
    have hperm : l.Perm (mx :: l.erase mx) := List.perm_cons_erase hmx
    rcases Nat.lt_or_ge mx T with hlt | hge
    · have hT' : 0 < T - mx := by omega
      have herase_mem : ∀ e ∈ l.erase mx, e ∈ availWidths a5 a := fun e he =>
        hmem e (List.mem_of_mem_erase he)
      have herase_dvd : ∀ e ∈ l.erase mx, e ∣ (T - mx) := by
        intro e he
        have hel : e ∈ l := List.mem_of_mem_erase he
        have h1 : e ∣ mx :=
          avail_dvd a5 a e (hmem e hel) mx (hmem mx hmx) (hmax e hel)
        exact Nat.dvd_sub' (hdvd e hel) h1
      have hsum_eq : l.sum = mx + (l.erase mx).sum := by
        have := hperm.sum_eq
        simpa using this
      have herase_sum : T - mx ≤ (l.erase mx).sum := by omega
      have herase_len : (l.erase mx).length ≤ k := by
        have := hperm.length_eq
        simp at this
        omega
      obtain ⟨sub, rest, hp, hs, hr⟩ :=
        ih (l.erase mx) (T - mx) herase_len hT' herase_mem herase_dvd herase_sum
      refine ⟨mx :: sub, rest, hperm.trans (hp.cons mx), ?_, hr⟩
      simp only [List.sum_cons, hs]
      omega
    · have hmxT : mx = T := le_antisymm hmxle hge
      subst hmxT
      refine ⟨[mx], l.erase mx, hperm, by simp, fun e he =>
        hmem e (List.mem_of_mem_erase he)⟩

theorem greedy_min (a5 a : Bool) (n : Nat) : n % 4 = 0 →
    ∀ (l : List Nat), (∀ w ∈ l, w ∈ availWidths a5 a) → l.sum = n →
    (greedySpec a5 a n).length ≤ l.length := by
  induction n using Nat.strong_induction_on with
  | _ n ih =>
    intro h4 l hmem hsum
    rcases Nat.eq_zero_or_pos n with rfl | hpos
    · rw [greedySpec_zero]
      simp
    · have hn4 : 4 ≤ n := by omega
      obtain ⟨L, hL⟩ := largestFit_of_ge4 a5 a hn4
      obtain ⟨hLmem, hLle⟩ := largestFit_mem_le hL
      obtain ⟨hL4, hLmod⟩ := avail_mem_facts a5 a L hLmem
      have hLpos : 0 < L := by omega
      have hdvd : ∀ e ∈ l, e ∣ L := by
        intro e he
        have hemem := hmem e he
        have hele : e ≤ n := by
          rw [← hsum]
          exact List.single_le_sum (fun x _ => Nat.zero_le x) e he
        have heleL : e ≤ L := largestFit_ge hL hemem hele
        exact avail_dvd a5 a e hemem L hLmem heleL
      obtain ⟨sub, rest, hperm, hsubsum, hrestmem⟩ :=
        subset_hits_target a5 a l.length l L (le_refl _) hLpos hmem hdvd
          (by omega)
      have hsplit : l.sum = sub.sum + rest.sum := by
        have := hperm.sum_eq
        simpa [List.sum_append] using this
      have hrest_sum : rest.sum = n - L := by omega
      have hrec := ih (n - L) (Nat.sub_lt hpos hLpos) (by omega) rest
        hrestmem hrest_sum
      rw [greedySpec_step hL]
      have hlen : l.length = sub.length + rest.length := by
        have := hperm.length_eq
        simpa [List.length_append] using this
      have hsub_len : 1 ≤ sub.length := by
        rcases sub with _ | ⟨x, s⟩
        · simp at hsubsum
          omega
        · simp
      simp only [List.length_cons]
      omega

theorem wrLoop_succ_some {a5 a : Bool} {dest src fuel : Nat} {m : Mem}
    {off r w : Nat} (hr : ¬ r = 0) (hs : wrStep a5 a r = some w) :
    wrLoop a5 a dest src (fuel + 1) m off r =
      (wrLoop a5 a dest src fuel (memmoveBytes m (dest + off) (src + off) w)
        (off + w) (r - w)).map (fun p => (p.1, w :: p.2)) := by
  rw [wrLoop, if_neg hr, hs]

theorem wrLoop_succ_none {a5 a : Bool} {dest src fuel : Nat} {m : Mem}
    {off r : Nat} (hr : ¬ r = 0) (hs : wrStep a5 a r = none) :
    wrLoop a5 a dest src (fuel + 1) m off r =
      wrLoop a5 a dest src fuel m off r := by
  rw [wrLoop, if_neg hr, hs]

theorem wrLoop_none_of_mod4 (a5 a : Bool) (dest src : Nat) :
    ∀ fuel (m : Mem) (off r : Nat), r % 4 ≠ 0 →
    wrLoop a5 a dest src fuel m off r = none := by
  intro fuel
  induction fuel with
  | zero =>
    intro m off r hr
    rw [wrLoop, if_neg (by omega)]
  | succ fuel ih =>
    intro m off r hr
    rcases hs : wrStep a5 a r with _ | w
    · rw [wrLoop_succ_none (by omega) hs]
      exact ih _ _ _ hr
    · obtain ⟨hmem, hle, _⟩ := wrStep_some_spec hs
      have hw : w % 4 = 0 := (avail_mem_facts a5 a w hmem).2
      rw [wrLoop_succ_some (by omega) hs, ih _ _ _ (by omega)]
      rfl

theorem wrLoop_spec (a5 a : Bool) (dest src bytes : Nat) :
    ∀ fuel (m : Mem) (off r : Nat), r % 4 = 0 → r ≤ 4 * fuel →
      off + r ≤ bytes →
      ∃ m', wrLoop a5 a dest src fuel m off r =
          some (m', greedySpec a5 a r) ∧
        (∀ x, ¬ (dest + off ≤ x ∧ x < dest + off + r) → m' x = m x) ∧
        ((src + bytes ≤ dest ∨ dest + bytes ≤ src) →
          ∀ i, i < r → m' (dest + off + i) = m (src + off + i)) := by
  intro fuel
  induction fuel with
  | zero =>
    intro m off r h4 hbound hoff
    have hr : r = 0 := by omega
    subst hr
    exact ⟨m, by rw [wrLoop, if_pos rfl, greedySpec_zero], fun x _ => rfl,
      fun _ i hi => absurd hi (by omega)⟩
  | succ fuel ih =>
    intro m off r h4 hbound hoff
    rcases Nat.eq_zero_or_pos r with rfl | hpos
    · exact ⟨m, by rw [wrLoop, if_pos rfl, greedySpec_zero], fun x _ => rfl,
        fun _ i hi => absurd hi (by omega)⟩
    · have hr4 : 4 ≤ r := by omega
      obtain ⟨w, hsw⟩ : ∃ w, wrStep a5 a r = some w := by
        rw [wrStep_eq_largestFit]
        exact largestFit_of_ge4 a5 a hr4
      obtain ⟨hwmem, hwle, _⟩ := wrStep_some_spec hsw
      obtain ⟨hw4, hwmod⟩ := avail_mem_facts a5 a w hwmem
      obtain ⟨m', hrun, hframe, hcopy⟩ :=
        ih (memmoveBytes m (dest + off) (src + off) w) (off + w) (r - w)
          (by omega) (by omega) (by omega)
      refine ⟨m', ?_, ?_, ?_⟩
      · rw [wrLoop_succ_some (by omega) hsw, hrun,
          greedySpec_step (n := r) (w := w)
            (by rw [← wrStep_eq_largestFit]; exact hsw)]
        rfl
      · intro x hx
        rw [hframe x (by omega)]
        simp only [memmoveBytes]
        rw [if_neg (by omega)]
      · intro hdisj i hi
        rcases Nat.lt_or_ge i w with hiw | hiw
        · rw [hframe _ (by omega)]
          simp only [memmoveBytes]
          rw [if_pos ⟨by omega, by omega⟩]
          congr 1
          omega
        · have hc := hcopy hdisj (i - w) (by omega)
          have hidx1 : dest + (off + w) + (i - w) = dest + off + i := by omega
          have hidx2 : src + (off + w) + (i - w) = src + off + i := by omega
          rw [hidx1, hidx2] at hc
          rw [hc]
          simp only [memmoveBytes]
          rw [if_neg (by omega)]

/-- C3 (amended): for every input length that is a multiple of 4,
`PMemOpsClwb::streaming_wr` terminates, decomposing the transfer into
available SIMD-width chunks summing to `bytes`, copying `dest[0..bytes)` from
`src[0..bytes)` (for disjoint ranges) and touching nothing else; for every
length with `bytes % 4 ≠ 0` the loop never exits (no branch handles a 1-3
byte residual, so the final iterationless state repeats forever). -/
theorem streaming_wr_terminates_iff_mult4 (a5 a : Bool) (m : Mem)
    (dest src bytes : Nat) :
    (bytes % 4 = 0 →
      ∃ m' l, streaming_wr a5 a m dest src bytes = some (m', l) ∧
        l.sum = bytes ∧ (∀ w ∈ l, w ∈ availWidths a5 a) ∧
        (∀ x, ¬ (dest ≤ x ∧ x < dest + bytes) → m' x = m x) ∧
        ((src + bytes ≤ dest ∨ dest + bytes ≤ src) →
          ∀ i, i < bytes → m' (dest + i) = m (src + i))) ∧
    (bytes % 4 ≠ 0 → wrDiverges a5 a m dest src bytes) := by
  constructor
  · intro h4
    obtain ⟨m', hrun, hframe, hcopy⟩ :=
      wrLoop_spec a5 a dest src bytes bytes m 0 bytes h4 (by omega) (by omega)
    obtain ⟨hsum, hmem⟩ := greedySpec_facts a5 a bytes h4
    refine ⟨m', greedySpec a5 a bytes, hrun, hsum, hmem, ?_, ?_⟩
    · intro x hx
      exact hframe x (by omega)
    · intro hdisj i hi
      have hc := hcopy hdisj i hi
      simpa using hc
  · intro h4 fuel
    exact wrLoop_none_of_mod4 a5 a dest src fuel m 0 bytes h4

theorem streaming_wr_terminates_iff_mult4_wit :
    ∃ m' l, streaming_wr true true m0 0 512 8 = some (m', l) ∧
      l.sum = 8 ∧ (∀ w ∈ l, w ∈ availWidths true true) ∧
      (∀ x, ¬ (0 ≤ x ∧ x < 0 + 8) → m' x = m0 x) ∧
      ((512 + 8 ≤ 0 ∨ 0 + 8 ≤ 512) →
        ∀ i, i < 8 → m' (0 + i) = m0 (512 + i)) :=
  (streaming_wr_terminates_iff_mult4 true true m0 0 512 8).1 (by norm_num)

/-- C3 counterexample: at `bytes = 3` the dispatch chain has no branch
(`wrStep` returns `none`), the loop body leaves `remaining_bytes = 3`
unchanged while the guard `remaining_bytes > 0` stays true, and the loop
never exits no matter how many iterations are allowed — refuting "for every
input length bytes, streaming_wr terminates". -/
theorem streaming_wr_diverges_on_three :
    wrDiverges true true m0 0 512 3 ∧ wrStep true true 3 = none :=
  ⟨fun fuel => wrLoop_none_of_mod4 true true 0 512 fuel m0 0 3 (by norm_num),
    by decide⟩

/-- C4 (amended: lengths that are multiples of 4): `streaming_wr` decomposes
the transfer greedily largest-width-first over the widths available at build
time; a length that is an exact multiple of the largest supported width is
dispatched using only that width, and any multiple-of-4 length (e.g. 100 with
AVX512F: 64+32+4) is decomposed greedily largest-first with the minimal
instruction count among all decompositions into available widths. -/
theorem streaming_wr_greedy_minimal (a5 a : Bool) (m : Mem)
    (dest src bytes : Nat) (h4 : bytes % 4 = 0) :
    ∃ m' l, streaming_wr a5 a m dest src bytes = some (m', l) ∧
      l = greedySpec a5 a bytes ∧
      (bytes % maxWidth a5 a = 0 → ∀ w ∈ l, w = maxWidth a5 a) ∧
      (∀ (l' : List Nat), (∀ w ∈ l', w ∈ availWidths a5 a) → l'.sum = bytes →
        l.length ≤ l'.length) := by
  obtain ⟨m', hrun, _, _⟩ :=
    wrLoop_spec a5 a dest src bytes bytes m 0 bytes h4 (by omega) (by omega)
  exact ⟨m', greedySpec a5 a bytes, hrun, rfl,
    fun hmod w hw => greedySpec_all_max a5 a bytes hmod w hw,
    fun l' hmem hsum => greedy_min a5 a bytes h4 l' hmem hsum⟩

theorem streaming_wr_greedy_minimal_wit :
    (100 : Nat) % 4 = 0 ∧
    (∃ m' l, streaming_wr true true m0 0 512 100 = some (m', l) ∧
      l = greedySpec true true 100 ∧
      ((100 : Nat) % maxWidth true true = 0 →
        ∀ w ∈ l, w = maxWidth true true) ∧
      (∀ (l' : List Nat), (∀ w ∈ l', w ∈ availWidths true true) →
        l'.sum = 100 → l.length ≤ l'.length)) :=
  ⟨by norm_num, streaming_wr_greedy_minimal true true m0 0 512 100 (by norm_num)⟩

/-- C4 counterexample: 97 bytes — the mixed-length example of the claim — is
not decomposed at all: since 97 is not a multiple of 4 the loop reaches a 1
byte residual and never exits, so no decomposition (minimal or otherwise) is
produced. -/
theorem streaming_wr_diverges_on_97 :
    wrDiverges true true m0 0 512 97 :=
  fun fuel => wrLoop_none_of_mod4 true true 0 512 fuel m0 0 97 (by norm_num)

end Nvsl
